import Mathlib

/-!
Verification of the env-declaration parsing engine of `enw` (src/lib.rs):
the quote/escape value tokenizer (`parse_value`), trailing-whitespace
trimming (`trim_end_whitespace`), key validation (`key_is_valid`), line and
document parsing (`parse_env_line`, `parse_env_doc`), and the multi-source
merge in `run`.

Rust strings (`&str` / `String`) are modelled as `List Char`; fallible Rust
functions returning `Result<_, BoxError>` are modelled as `Except Err _`,
where `Err.parse` is an ordinary returned error and `Err.crash` models a
Rust panic (an abnormal termination that is not a returned error).
-/

namespace Enw

/-- Rust `char::is_whitespace`: the Unicode `White_Space` property
(U+0009..U+000D, U+0020, U+0085, U+00A0, U+1680, U+2000..U+200A,
U+2028, U+2029, U+202F, U+205F, U+3000). -/
def rustIsWhitespace (c : Char) : Bool :=
  let n := c.toNat
  (0x09 ≤ n && n ≤ 0x0D) || n == 0x20 || n == 0x85 || n == 0xA0 || n == 0x1680 ||
    (0x2000 ≤ n && n ≤ 0x200A) || n == 0x2028 || n == 0x2029 || n == 0x202F ||
    n == 0x205F || n == 0x3000

/-- Rust `char::is_ascii_alphabetic`. -/
def isAsciiAlphabetic (c : Char) : Bool :=
  ('A' ≤ c && c ≤ 'Z') || ('a' ≤ c && c ≤ 'z')

/-- Rust `char::len_utf8`: the number of bytes of the UTF-8 encoding of `c`. -/
def utf8Len (c : Char) : Nat :=
  if c.toNat < 0x80 then 1
  else if c.toNat < 0x800 then 2
  else if c.toNat < 0x10000 then 3
  else 4

/-- Rust `str::len` / `String::len`: length in UTF-8 bytes. -/
def byteLen (l : List Char) : Nat :=
  (l.map utf8Len).sum

/-- Result of a fallible Rust computation: `Err.parse` is a returned
`Err(...)` value, `Err.crash` models a Rust panic. -/
inductive Err where
  | parse : String → Err
  | crash : String → Err
deriving DecidableEq

/-- `Except.isOk` as a Bool, on our `Err` results. -/
def rIsOk {α : Type} : Except Err α → Bool
  | .ok _ => true
  | .error _ => false

/-- The state enum `S` of `parse_value` in src/lib.rs. -/
inductive S where
  | DoubleQuote
  | Escape
  | SingleQuote
  | Start
deriving DecidableEq

/-- The character loop of `parse_value` (src/lib.rs lines 173-230).
The state stack `Vec<S>` is a `List S` with the top of the stack at the
head. `state.last().unwrap()` on an empty stack would panic; those branches
are modelled as `Err.crash` (they are unreachable from the initial stack
`[S.Start]`). The `break 'outer` on an unquoted `#` returns the current
stack and output just as falling off the end of the input does. -/
def pvLoop : List Char → List S → List Char → Except Err (List S × List Char)
  | [], st, out => .ok (st, out)
  | c :: cs, st, out =>
    match st with
    | [] => .error (.crash "called Option.unwrap on a None value")
    | s :: rest =>
      match s with
      | .Escape =>
        match rest with
        | [] => .error (.crash "called Option.unwrap on a None value")
        | s2 :: _ =>
          match s2 with
          | .DoubleQuote =>
            if c = '"' || c = '\\' then pvLoop cs rest (out ++ [c])
            else pvLoop cs rest (out ++ ['\\', c])
          | .SingleQuote =>
            if c = '\'' || c = '\\' then pvLoop cs rest (out ++ [c])
            else pvLoop cs rest (out ++ ['\\', c])
          | .Start =>
            if c = '"' || c = '\'' || c = ' ' || c = '$' || c = '\\' then
              pvLoop cs rest (out ++ [c])
            else
              .error (.parse ("error parsing value, invalid escape: " ++ String.singleton c))
          | .Escape => .error (.crash "internal error: entered unreachable code")
      | .DoubleQuote =>
        if c = '"' then pvLoop cs (S.Start :: rest) out
        else if c = '\\' then pvLoop cs (S.Escape :: st) out
        else pvLoop cs st (out ++ [c])
      | .SingleQuote =>
        if c = '\'' then pvLoop cs (S.Start :: rest) out
        else if c = '\\' then pvLoop cs (S.Escape :: st) out
        else pvLoop cs st (out ++ [c])
      | .Start =>
        if c = '"' then pvLoop cs (S.DoubleQuote :: rest) out
        else if c = '\'' then pvLoop cs (S.SingleQuote :: rest) out
        else if c = '\\' then pvLoop cs (S.Escape :: st) out
        else if c = '#' then .ok (st, out)
        else pvLoop cs st (out ++ [c])

/-- The first `n` bytes of the UTF-8 encoding of `l`, as characters, when
byte position `n` lies on a character boundary; `none` otherwise. -/
def takeBytes : List Char → Nat → Option (List Char)
  | _, 0 => some []
  | [], _ + 1 => none
  | c :: cs, n + 1 =>
    if utf8Len c ≤ n + 1 then (takeBytes cs (n + 1 - utf8Len c)).map (c :: ·)
    else none

/-- `trim_end_whitespace` (src/lib.rs lines 244-251): counts the trailing
whitespace *characters*, then truncates the string to *byte* length
`s.len() - trailing_whitespace`. `String::truncate` panics when the new
length is not a character boundary; that panic is `Err.crash`. -/
def trim_end_whitespace (s : List Char) : Except Err (List Char) :=
  let trailing := (s.reverse.takeWhile rustIsWhitespace).length
  match takeBytes s (byteLen s - trailing) with
  | some t => .ok t
  | none => .error (.crash "assertion failed: self.is_char_boundary(new_len)")

/-- `parse_value` (src/lib.rs lines 163-241): run the character loop from
stack `[S.Start]`; at the end succeed only when the stack is exactly
`[S.Start]`, reporting unmatched quotes when a quote state is on top and a
generic error otherwise; on success trim trailing whitespace. -/
def parse_value (v : List Char) : Except Err (List Char) :=
  match pvLoop v [S.Start] [] with
  | .error e => .error e
  | .ok (st, out) =>
    if st = [S.Start] then
      match trim_end_whitespace out with
      | .error e => .error e
      | .ok t => .ok t
    else
      match st with
      | S.DoubleQuote :: _ => .error (.parse "error parsing value: unmatched quotes.")
      | S.SingleQuote :: _ => .error (.parse "error parsing value: unmatched quotes.")
      | _ => .error (.parse "error parsing value")

/-- `key_is_valid` (src/lib.rs lines 154-161). -/
def key_is_valid (key : List Char) : Bool :=
  !key.isEmpty &&
    (key.take 1).all (fun c => isAsciiAlphabetic c || c == '_') &&
    !key.any rustIsWhitespace

/-- Rust `str::trim_start`: drop leading Unicode whitespace. -/
def trimStartL (l : List Char) : List Char :=
  l.dropWhile rustIsWhitespace

/-- Rust `str::trim_end`: drop trailing Unicode whitespace. -/
def trimEndL (l : List Char) : List Char :=
  (l.reverse.dropWhile rustIsWhitespace).reverse

/-- Rust `str::trim`: drop leading and trailing Unicode whitespace. -/
def trimL (l : List Char) : List Char :=
  trimEndL (trimStartL l)

/-- Rust `line.splitn(2, '=')`: the part before the first `'='` and, when a
`'='` occurs, the remainder after it. -/
def splitFirstEq : List Char → List Char × Option (List Char)
  | [] => ([], none)
  | c :: cs =>
    if c = '=' then ([], some cs)
    else
      let p := splitFirstEq cs
      (c :: p.1, p.2)

/-- `parse_env_line` (src/lib.rs lines 144-152): split at the first `'='`,
trim both parts, validate the key, tokenize the value. -/
def parse_env_line (line : List Char) : Except Err (List Char × List Char) :=
  let parts := splitFirstEq line
  let key := trimL parts.1
  if key_is_valid key then
    match parse_value (trimL (parts.2.getD [])) with
    | .error e => .error e
    | .ok v => .ok (key, v)
  else
    .error (.parse ("KEY contains invalid characters: " ++ String.mk key))

/-- Split on `'\n'`, keeping every piece (including empty ones). -/
def splitLinesL : List Char → List (List Char)
  | [] => [[]]
  | c :: cs =>
    let r := splitLinesL cs
    if c = '\n' then [] :: r
    else
      match r with
      | [] => [[c]]
      | h :: t => (c :: h) :: t

/-- Strip one trailing `'\r'`, when present. -/
def stripCRL (l : List Char) : List Char :=
  match l.reverse with
  | '\r' :: rest => rest.reverse
  | _ => l

/-- Rust `str::lines`: split on `'\n'`, strip a `'\r'` preceding each
`'\n'`, and do not yield a final empty line for a trailing terminator. The
last piece, which was not followed by `'\n'`, keeps any trailing `'\r'`. -/
def rustLines (text : List Char) : List (List Char) :=
  let ps := splitLinesL text
  let body := ps.dropLast.map stripCRL
  match ps.getLast? with
  | none => []
  | some last => if last.isEmpty then body else body ++ [last]

/-- Whether the first character is `'#'` (Rust `line.starts_with('#')`). -/
def startsWithHash : List Char → Bool
  | '#' :: _ => true
  | _ => false

/-- `parse_env_doc` (src/lib.rs lines 136-142): per line, trim the start,
keep only lines that contain `'='` and do not start with `'#'`, and parse
each kept line. -/
def parse_env_doc (text : List Char) : List (Except Err (List Char × List Char)) :=
  (((rustLines text).map trimStartL).filter
      (fun line => line.contains '=' && !startsWithHash line)).map parse_env_line

/-- Rust `collect::<Result<_, _>>()`: all values, or the first error. -/
def collectResults {α : Type} : List (Except Err α) → Except Err (List α)
  | [] => .ok []
  | .error e :: _ => .error e
  | .ok a :: t =>
    match collectResults t with
    | .error e => .error e
    | .ok l => .ok (a :: l)

/-- The first error in a list of outcomes, if any. -/
def firstErrorOf {α : Type} : List (Except Err α) → Option Err
  | [] => none
  | .error e :: _ => some e
  | .ok _ :: t => firstErrorOf t

/-- A key/value pair of the final mapping. -/
abbrev KV := List Char × List Char

/-- `HashMap::insert` on an association-list model of the map: replace the
entry when the key is present, append otherwise. -/
def hmInsert (m : List KV) (k v : List Char) : List KV :=
  if m.any (fun p => p.1 == k) then
    m.map (fun p => if p.1 == k then (k, v) else p)
  else
    m ++ [(k, v)]

/-- `HashMap::get` on the association-list model. -/
def hmLookup (m : List KV) (k : List Char) : Option (List Char) :=
  (m.find? (fun p => p.1 == k)).map Prod.snd

/-- `HashMap::from_iter` / `extend`: insert every pair in order. -/
def hmOfList (l : List KV) : List KV :=
  l.foldl (fun m p => hmInsert m p.1 p.2) []

/-- The value of the latest declaration of `k` in `l`, if any. -/
def lastVal : List KV → List Char → Option (List Char)
  | [], _ => none
  | p :: t, k =>
    match lastVal t k with
    | some w => some w
    | none => if p.1 == k then some p.2 else none

/-- The merge of `run` (src/lib.rs lines 65-69): parse every document,
abort at the first parse error, fold the declarations into a map
(`collect::<Result<HashMap, _>>`), then `extend` with the inline
command-line assignments `vars`. `docs` lists the file contents in
precedence order: the implicit default `.env` file first, then the
explicitly named files in the order given (src/lib.rs lines 262-279). -/
def finalMap (docs : List (List Char)) (vars : List KV) : Except Err (List KV) :=
  match collectResults ((docs.map parse_env_doc).flatten) with
  | .error e => .error e
  | .ok ds => .ok (hmOfList (ds ++ vars))

/-- Strict lexicographic order on `List Char` (Rust `String`'s `Ord`;
for UTF-8, byte order coincides with code-point order). -/
def listCharLt : List Char → List Char → Bool
  | [], [] => false
  | [], _ :: _ => true
  | _ :: _, [] => false
  | a :: l₁, b :: l₂ =>
    if a < b then true
    else if b < a then false
    else listCharLt l₁ l₂

/-- `(k, v) ≤ (k', v')` for `Vec::sort` on `Vec<(String, String)>`. -/
def pairLe (p q : KV) : Bool :=
  listCharLt p.1 q.1 || (p.1 == q.1 && (listCharLt p.2 q.2 || p.2 == q.2))

/-- Insert into a sorted list (helper for the model of `Vec::sort`). -/
def insertPairSorted (p : KV) : List KV → List KV
  | [] => [p]
  | q :: t => if pairLe p q then p :: q :: t else q :: insertPairSorted p t

/-- Model of `env_vars.sort()` (src/lib.rs line 71): insertion sort. -/
def sortPairs (l : List KV) : List KV :=
  l.foldr insertPairSorted []

/-- The observable action `run` ends with: launching a child process with
the final environment, or printing the final mapping. -/
inductive RunAction where
  | exec : List Char → List KV → RunAction
  | print : List KV → RunAction
deriving DecidableEq

/-- `run` (src/lib.rs lines 65-89) after file resolution: build the final
mapping (aborting on the first parse error before anything else happens),
sort it, then either exec the command with it or print it. -/
def runModel (docs : List (List Char)) (vars : List KV) (command : Option (List Char)) :
    Except Err RunAction :=
  match finalMap docs vars with
  | .error e => .error e
  | .ok m =>
    match command with
    | some c => .ok (.exec c (sortPairs m))
    | none => .ok (.print (sortPairs m))

/-- The rendering of one entry in print mode (src/lib.rs line 86):
`println!("{}={}", key, value)` renders the line `key=value` verbatim,
with no quoting or escaping. -/
def renderLine (k v : List Char) : List Char :=
  k ++ '=' :: v

/-- A line is skipped by the Document Parser, in the spec's wording: after
leading whitespace is stripped it is empty, starts with `#`, or contains
no `=` character. -/
def specLineSkipped (t : List Char) : Bool :=
  t.isEmpty || startsWithHash t || !(t.contains '=')

/-- The Document Parser's outcome sequence, in the spec's wording: each
line contributes nothing when it is skipped, and exactly one Line Parser
outcome otherwise. -/
def specDocOutcomes (text : List Char) : List (Except Err (List Char × List Char)) :=
  ((rustLines text).map (fun line =>
    let t := trimStartL line
    if specLineSkipped t then [] else [parse_env_line t])).flatten

instance {ε α : Type} [DecidableEq ε] [DecidableEq α] : DecidableEq (Except ε α) := fun a b =>
  match a, b with
  | .ok x, .ok y => decidable_of_iff (x = y) (by simp)
  | .ok _, .error _ => .isFalse (by simp)
  | .error _, .ok _ => .isFalse (by simp)
  | .error e, .error f => decidable_of_iff (e = f) (by simp)

/-! Helper lemmas -/

theorem utf8Len_pos (c : Char) : 1 ≤ utf8Len c := by
  unfold utf8Len
  split
  · omega
  split
  · omega
  split <;> omega

theorem takeBytes_byteLen (l : List Char) : takeBytes l (byteLen l) = some l := by
  induction l with
  | nil => rfl
  | cons c cs ih =>
    have hpos := utf8Len_pos c
    have hb : byteLen (c :: cs) = utf8Len c + byteLen cs := by
      simp [byteLen]
    cases hn : byteLen (c :: cs) with
    | zero => omega
    | succ n =>
      have h1 : utf8Len c ≤ n + 1 := by omega
      have h2 : n + 1 - utf8Len c = byteLen cs := by omega
      simp only [takeBytes, if_pos h1, h2, ih, Option.map_some']

theorem takeWhile_nil_of_head {p : Char → Bool} {l : List Char}
    (h : ∀ c, l.head? = some c → p c = false) : l.takeWhile p = [] := by
  cases l with
  | nil => rfl
  | cons c t => simp [List.takeWhile_cons, h c rfl]

theorem dropWhile_id_of_head {p : Char → Bool} {l : List Char}
    (h : ∀ c, l.head? = some c → p c = false) : l.dropWhile p = l := by
  cases l with
  | nil => rfl
  | cons c t => simp [List.dropWhile_cons, h c rfl]

theorem trim_end_whitespace_of_no_trailing {l : List Char}
    (h : ∀ c, l.getLast? = some c → rustIsWhitespace c = false) :
    trim_end_whitespace l = .ok l := by
  have h1 : l.reverse.takeWhile rustIsWhitespace = [] :=
    takeWhile_nil_of_head (fun c hc => h c (by rwa [List.head?_reverse] at hc))
  simp only [trim_end_whitespace, h1, List.length_nil, Nat.sub_zero, takeBytes_byteLen]

theorem trimStartL_id_of_head {l : List Char}
    (h : ∀ c, l.head? = some c → rustIsWhitespace c = false) : trimStartL l = l :=
  dropWhile_id_of_head h

theorem trimEndL_id_of_last {l : List Char}
    (h : ∀ c, l.getLast? = some c → rustIsWhitespace c = false) : trimEndL l = l := by
  unfold trimEndL
  rw [dropWhile_id_of_head (fun c hc => h c (by rwa [List.head?_reverse] at hc)),
    List.reverse_reverse]

theorem trimL_id_of_no_ws {l : List Char}
    (h : ∀ c ∈ l, rustIsWhitespace c = false) : trimL l = l := by
  unfold trimL
  rw [trimStartL_id_of_head fun c hc => h c (by cases l <;> simp_all),
    trimEndL_id_of_last fun c hc => h c (List.mem_of_getLast?_eq_some hc)]

/-- Claim C6: the key validator returns true iff the candidate key is
non-empty, its first character is an ASCII letter or an underscore, and no
character of it is whitespace. (It is a pure Lean function translated from
`key_is_valid`, hence side-effect free.) -/
theorem c6_key_validator_iff (k : List Char) :
    key_is_valid k = true ↔
      k ≠ [] ∧ (∀ c, k.head? = some c → (isAsciiAlphabetic c = true ∨ c = '_')) ∧
        (∀ c ∈ k, rustIsWhitespace c = false) := by
  cases k with
  | nil => simp [key_is_valid]
  | cons c t =>
    simp [key_is_valid, List.take, List.any_eq_true]

/-- The keep-condition of `parse_env_doc`'s filter is the negation of the
spec's skip-condition. -/
theorem keep_cond_eq (t : List Char) :
    (t.contains '=' && !startsWithHash t) = !(specLineSkipped t) := by
  cases t with
  | nil => simp [specLineSkipped, startsWithHash]
  | cons c l =>
    simp only [specLineSkipped, List.isEmpty_cons, Bool.false_or]
    cases hc : (c :: l).contains '=' <;> cases hh : startsWithHash (c :: l) <;> rfl

/-- Claim C8: a line that, after leading whitespace is stripped, is empty,
starts with `#`, or contains no `=` contributes no outcome to the Document
Parser's output; every other line contributes exactly one Line Parser
outcome. `specDocOutcomes` is the spec-worded per-line description;
`parse_env_doc` is the code. -/
theorem c8_doc_outcomes_refine (text : List Char) :
    parse_env_doc text = specDocOutcomes text := by
  unfold parse_env_doc specDocOutcomes
  generalize rustLines text = ls
  induction ls with
  | nil => rfl
  | cons l ls ih =>
    simp only [List.map_cons, List.flatten_cons, List.filter_cons]
    rw [keep_cond_eq]
    cases hskip : specLineSkipped (trimStartL l) with
    | false => simpa using congrArg (parse_env_line (trimStartL l) :: ·) ih
    | true => simpa using ih

/-- Claim C2 (refuted by the code): the value tokenizer is claimed never to
crash, but on a double-quoted non-breaking space (U+00A0, two UTF-8 bytes)
the trailing-whitespace pass subtracts the trailing whitespace *character*
count from the *byte* length and `String::truncate` panics on the resulting
non-boundary position. The same input reaches the tokenizer through the
line parser. -/
theorem c2_tokenizer_crash :
    parse_value "\"\u00A0\"".data =
      .error (.crash "assertion failed: self.is_char_boundary(new_len)") ∧
    parse_env_line "KEY=\"\u00A0\"".data =
      .error (.crash "assertion failed: self.is_char_boundary(new_len)") := by
  exact ⟨rfl, rfl⟩

/-- Claim C7 (refuted by the code): trailing whitespace is claimed to be
removed from the accumulated output after the character pass, but for the
value `"a<NEL><NEL>"` (U+0085, a two-byte newline-class whitespace
character, twice) the byte-length/char-count confusion truncates only one
of the two characters: the result `a<NEL>` still ends in whitespace. With
a single trailing U+0085 the same confusion panics instead. -/
theorem c7_trailing_trim_bug :
    parse_value "\"a\u0085\u0085\"".data = .ok "a\u0085".data ∧
    rustIsWhitespace '\u0085' = true ∧
    "a\u0085".data.getLast? = some '\u0085' ∧
    parse_value "\"a\u0085\"".data =
      .error (.crash "assertion failed: self.is_char_boundary(new_len)") := by
  exact ⟨rfl, rfl, rfl, rfl⟩

/-! The merge engine: lookup in the folded map is the latest declaration. -/

theorem lastVal_cons (p : KV) (t : List KV) (k : List Char) :
    lastVal (p :: t) k = (lastVal t k).or (if p.1 == k then some p.2 else none) := by
  rw [lastVal]
  cases lastVal t k <;> rfl

theorem lastVal_append (a b : List KV) (k : List Char) :
    lastVal (a ++ b) k = (lastVal b k).or (lastVal a k) := by
  induction a with
  | nil =>
    rw [List.nil_append]
    cases lastVal b k <;> rfl
  | cons p t ih =>
    rw [List.cons_append, lastVal_cons, lastVal_cons, ih]
    cases lastVal b k <;> cases lastVal t k <;> rfl

theorem find_replace_self (m : List KV) (k v : List Char)
    (h : m.any (fun p => p.1 == k) = true) :
    (m.map (fun p => if p.1 == k then (k, v) else p)).find? (fun p => p.1 == k) =
      some (k, v) := by
  induction m with
  | nil => simp at h
  | cons p t ih =>
    rw [List.map_cons]
    by_cases hp : p.1 = k
    · have hf : (if p.1 == k then (k, v) else p) = (k, v) := by simp [hp]
      rw [hf, List.find?_cons_of_pos _ (by simp)]
    · have hf : (if p.1 == k then (k, v) else p) = p := by simp [hp]
      have h' : t.any (fun p => p.1 == k) = true := by
        simpa [List.any_cons, hp] using h
      rw [hf, List.find?_cons_of_neg _ (by simp [hp]), ih h']

theorem find_replace_ne (m : List KV) (k v k' : List Char) (h : k' ≠ k) :
    (m.map (fun p => if p.1 == k then (k, v) else p)).find? (fun p => p.1 == k') =
      m.find? (fun p => p.1 == k') := by
  induction m with
  | nil => rfl
  | cons p t ih =>
    rw [List.map_cons]
    by_cases hp : p.1 = k
    · have hf : (if p.1 == k then (k, v) else p) = (k, v) := by simp [hp]
      rw [hf, List.find?_cons_of_neg _ (by simp; exact fun hh => h hh.symm),
        List.find?_cons_of_neg _ (by simp [hp]; exact fun hh => h hh.symm), ih]
    · have hf : (if p.1 == k then (k, v) else p) = p := by simp [hp]
      by_cases hq : p.1 = k'
      · rw [hf, List.find?_cons_of_pos _ (by simp [hq]),
          List.find?_cons_of_pos _ (by simp [hq])]
      · rw [hf, List.find?_cons_of_neg _ (by simp [hq]),
          List.find?_cons_of_neg _ (by simp [hq]), ih]

theorem find_none_of_any_false (m : List KV) (k : List Char)
    (h : m.any (fun p => p.1 == k) = false) :
    m.find? (fun p => p.1 == k) = none := by
  induction m with
  | nil => rfl
  | cons p t ih =>
    simp only [List.any_cons, Bool.or_eq_false_iff] at h
    rw [List.find?_cons_of_neg _ (by simp [h.1]), ih h.2]

theorem hmLookup_hmInsert (m : List KV) (k v k' : List Char) :
    hmLookup (hmInsert m k v) k' = if k' = k then some v else hmLookup m k' := by
  unfold hmInsert hmLookup
  by_cases hany : m.any (fun p => p.1 == k) = true
  · rw [if_pos hany]
    by_cases hk : k' = k
    · subst hk
      rw [find_replace_self m k' v hany, if_pos rfl]
      rfl
    · rw [find_replace_ne m k v k' hk, if_neg hk]
  · rw [if_neg hany]
    have hany' : m.any (fun p => p.1 == k) = false := eq_false_of_ne_true hany
    rw [List.find?_append]
    by_cases hk : k' = k
    · subst hk
      rw [find_none_of_any_false m k' hany', if_pos rfl,
        List.find?_cons_of_pos _ (by simp)]
      rfl
    · rw [List.find?_cons_of_neg _ (by simp; exact fun hh => hk hh.symm),
        List.find?_nil, Option.or_none, if_neg hk]

theorem hmLookup_foldl (l : List KV) (m : List KV) (k : List Char) :
    hmLookup (l.foldl (fun m p => hmInsert m p.1 p.2) m) k =
      (lastVal l k).or (hmLookup m k) := by
  induction l generalizing m with
  | nil =>
    rw [List.foldl_nil]
    cases hmLookup m k <;> rfl
  | cons p t ih =>
    rw [List.foldl_cons, ih, hmLookup_hmInsert, lastVal_cons]
    cases hlv : lastVal t k with
    | some w => rfl
    | none =>
      by_cases hp : p.1 = k
      · have h1 : (if k = p.1 then some p.2 else hmLookup m k) = some p.2 := if_pos hp.symm
        have h2 : (if p.1 == k then some p.2 else none) = some p.2 := by simp [hp]
        rw [h1, h2]
        rfl
      · have h1 : (if k = p.1 then some p.2 else hmLookup m k) = hmLookup m k :=
          if_neg fun hh => hp hh.symm
        have h2 : (if p.1 == k then some p.2 else none) = none := by simp [hp]
        rw [h1, h2]
        rfl

theorem hmLookup_hmOfList (l : List KV) (k : List Char) :
    hmLookup (hmOfList l) k = lastVal l k := by
  unfold hmOfList
  rw [hmLookup_foldl]
  cases lastVal l k <;> rfl

theorem collectResults_error_of_firstError {α : Type} (l : List (Except Err α)) (e : Err)
    (h : firstErrorOf l = some e) : collectResults l = .error e := by
  induction l with
  | nil => cases h
  | cons r t ih =>
    cases r with
    | error f =>
      simp only [firstErrorOf, Option.some.injEq] at h
      simp [collectResults, h]
    | ok a =>
      simp only [firstErrorOf] at h
      simp [collectResults, ih h]

theorem collectResults_ok_of_all_ok {α : Type} (l : List (Except Err α))
    (h : ∀ r ∈ l, rIsOk r = true) : ∃ ds, collectResults l = .ok ds := by
  induction l with
  | nil => exact ⟨[], rfl⟩
  | cons r t ih =>
    cases r with
    | error f =>
      have := h _ (List.mem_cons_self _ _)
      simp [rIsOk] at this
    | ok a =>
      obtain ⟨ds, hds⟩ := ih fun r hr => h r (List.mem_cons_of_mem _ hr)
      exact ⟨a :: ds, by simp [collectResults, hds]⟩

/-- Claim C1: in the final mapping, every key holds the value of its latest
declaration across all sources taken in precedence order — the documents of
`docs` in order (implicit default `.env` file first, then the explicitly
named files in the order given, exactly how `run` builds the list), with
the inline command-line assignments `vars` applied last. In particular,
whenever a key has any inline assignment, the latest inline assignment wins
over every file declaration. -/
theorem c1_latest_source_wins (docs : List (List Char)) (vars : List KV)
    (ds m : List KV) (k : List Char)
    (hds : collectResults ((docs.map parse_env_doc).flatten) = .ok ds)
    (hm : finalMap docs vars = .ok m) :
    hmLookup m k = lastVal (ds ++ vars) k ∧
      (∀ w, lastVal vars k = some w → hmLookup m k = some w) := by
  unfold finalMap at hm
  rw [hds] at hm
  injection hm with hm
  subst hm
  refine ⟨hmLookup_hmOfList _ _, fun w hw => ?_⟩
  rw [hmLookup_hmOfList, lastVal_append, hw]
  rfl

/-- Witness for C1: default file `A=1`, named file `A=2`, inline
assignments `A=3` then `A=4`; the final mapping holds `A=4`. -/
theorem c1_latest_source_wins_w :
    collectResults (([("A=1".data : List Char), "A=2".data].map parse_env_doc).flatten) =
      .ok [("A".data, "1".data), ("A".data, "2".data)] ∧
    finalMap ["A=1".data, "A=2".data] [("A".data, "3".data), ("A".data, "4".data)] =
      .ok [("A".data, "4".data)] ∧
    (hmLookup [("A".data, "4".data)] "A".data =
        lastVal ([("A".data, "1".data), ("A".data, "2".data)] ++
          [("A".data, "3".data), ("A".data, "4".data)]) "A".data ∧
      (∀ w, lastVal [("A".data, "3".data), ("A".data, "4".data)] "A".data = some w →
        hmLookup [("A".data, "4".data)] "A".data = some w)) :=
  ⟨by decide, by decide,
    c1_latest_source_wins ["A=1".data, "A=2".data]
      [("A".data, "3".data), ("A".data, "4".data)]
      [("A".data, "1".data), ("A".data, "2".data)] [("A".data, "4".data)] "A".data
      (by decide) (by decide)⟩

/-- Claim C5: when any line of any loaded file produces a parse error, the
whole run aborts with the first such error: the final mapping is never
built (no partial merge) and `run` never reaches the exec/print step, so no
child process is launched with a partially applied environment. -/
theorem c5_error_aborts (docs : List (List Char)) (vars : List KV)
    (cmd : Option (List Char)) (e : Err)
    (h : firstErrorOf ((docs.map parse_env_doc).flatten) = some e) :
    finalMap docs vars = .error e ∧ runModel docs vars cmd = .error e ∧
      ∀ a, runModel docs vars cmd ≠ .ok a := by
  have h1 : finalMap docs vars = .error e := by
    unfold finalMap
    rw [collectResults_error_of_firstError _ e h]
  refine ⟨h1, ?_, ?_⟩
  · simp [runModel, h1]
  · intro a hc
    simp [runModel, h1] at hc

/-- Witness for C5: a file whose only line has an unterminated quote makes
the whole run abort with the unmatched-quote error. -/
theorem c5_error_aborts_w :
    firstErrorOf (([("A=\"x".data : List Char)].map parse_env_doc).flatten) =
      some (.parse "error parsing value: unmatched quotes.") ∧
    runModel ["A=\"x".data] [] none =
      .error (.parse "error parsing value: unmatched quotes.") :=
  ⟨by decide,
    (c5_error_aborts ["A=\"x".data] [] none
      (.parse "error parsing value: unmatched quotes.") (by decide)).2.1⟩

/-- Claim C9: within a single document, duplicate keys are not an error
(when every line parses, the document's collect succeeds), and the final
mapping holds, for every key, the value of the latest line declaring it. -/
theorem c9_intra_doc_last_wins (text : List Char)
    (h : ∀ r ∈ parse_env_doc text, rIsOk r = true) :
    ∃ ds m, collectResults (parse_env_doc text) = .ok ds ∧
      finalMap [text] [] = .ok m ∧ ∀ k, hmLookup m k = lastVal ds k := by
  obtain ⟨ds, hds⟩ := collectResults_ok_of_all_ok _ h
  refine ⟨ds, hmOfList ds, hds, ?_, fun k => hmLookup_hmOfList _ _⟩
  unfold finalMap
  have h2 : ([text].map parse_env_doc).flatten = parse_env_doc text := by simp
  rw [h2, hds]
  simp

/-- Witness for C9: in the single document `A=1\nA=2`, both lines parse and
the later one wins. -/
theorem c9_intra_doc_last_wins_w :
    (∀ r ∈ parse_env_doc "A=1\nA=2".data, rIsOk r = true) ∧
    (∃ ds m, collectResults (parse_env_doc "A=1\nA=2".data) = .ok ds ∧
      finalMap ["A=1\nA=2".data] [] = .ok m ∧ ∀ k, hmLookup m k = lastVal ds k) :=
  ⟨by decide, c9_intra_doc_last_wins _ (by decide)⟩


/-! Tokenizer-side helper lemmas -/

/-- The end-of-input block of `parse_value` (src/lib.rs lines 231-240),
factored out for reasoning: given the final stack and output of the
character loop, the check at line 231 and the trim at line 239. -/
def endCheck (st : List S) (out : List Char) : Except Err (List Char) :=
  if st = [S.Start] then
    match trim_end_whitespace out with
    | .error e => .error e
    | .ok t => .ok t
  else
    match st with
    | S.DoubleQuote :: _ => .error (.parse "error parsing value: unmatched quotes.")
    | S.SingleQuote :: _ => .error (.parse "error parsing value: unmatched quotes.")
    | _ => .error (.parse "error parsing value")

theorem parse_value_eq_of_loop (v : List Char) (st : List S) (out : List Char)
    (h : pvLoop v [S.Start] [] = .ok (st, out)) :
    parse_value v = endCheck st out := by
  unfold parse_value endCheck
  rw [h]

theorem pvLoop_plain (l : List Char) (out : List Char)
    (h : ∀ c ∈ l, c ≠ '"' ∧ c ≠ '\'' ∧ c ≠ '\\' ∧ c ≠ '#') :
    pvLoop l [S.Start] out = .ok ([S.Start], out ++ l) := by
  induction l generalizing out with
  | nil => rw [pvLoop, List.append_nil]
  | cons c t ih =>
    obtain ⟨h1, h2, h3, h4⟩ := h c (List.mem_cons_self _ _)
    simp only [pvLoop, if_neg h1, if_neg h2, if_neg h3, if_neg h4]
    rw [ih _ fun c hc => h c (List.mem_cons_of_mem _ hc), List.append_assoc,
      List.singleton_append]

theorem splitFirstEq_append (k v : List Char) (h : '=' ∉ k) :
    splitFirstEq (k ++ '=' :: v) = (k, some v) := by
  induction k with
  | nil => simp [splitFirstEq]
  | cons c t ih =>
    have hc : ¬(c = '=') := fun hh => h (by rw [hh]; exact List.mem_cons_self _ _)
    simp only [List.cons_append, splitFirstEq, if_neg hc, List.append_eq]
    rw [ih fun hm => h (List.mem_cons_of_mem _ hm)]

theorem key_is_valid_no_ws {k : List Char} (h : key_is_valid k = true) :
    ∀ c ∈ k, rustIsWhitespace c = false := by
  unfold key_is_valid at h
  rw [Bool.and_eq_true, Bool.and_eq_true] at h
  have h2 : k.any rustIsWhitespace = false := by
    have h3 := h.2
    rwa [Bool.not_eq_true'] at h3
  intro c hc
  cases hws : rustIsWhitespace c
  · rfl
  · have : k.any rustIsWhitespace = true := List.any_eq_true.mpr ⟨c, hc, hws⟩
    rw [this] at h2
    cases h2

theorem dropWhile_nil_of_all {p : Char → Bool} {l : List Char}
    (h : ∀ c ∈ l, p c = true) : l.dropWhile p = [] := by
  induction l with
  | nil => rfl
  | cons c t ih =>
    rw [List.dropWhile_cons, if_pos (h c (List.mem_cons_self _ _))]
    exact ih fun c hc => h c (List.mem_cons_of_mem _ hc)

theorem dropWhile_append_all {p : Char → Bool} {a : List Char} (b : List Char)
    (h : ∀ c ∈ a, p c = true) : (a ++ b).dropWhile p = b.dropWhile p := by
  induction a with
  | nil => rfl
  | cons c t ih =>
    rw [List.cons_append, List.dropWhile_cons, if_pos (h c (List.mem_cons_self _ _))]
    exact ih fun c hc => h c (List.mem_cons_of_mem _ hc)

theorem trimEndL_cons_ex (c : Char) (t : List Char) (hc : rustIsWhitespace c = false) :
    ∃ t', trimEndL (c :: t) = c :: t' := by
  unfold trimEndL
  rw [List.reverse_cons, List.dropWhile_append]
  cases he : (t.reverse.dropWhile rustIsWhitespace).isEmpty with
  | true =>
    refine ⟨[], ?_⟩
    rw [if_pos rfl]
    simp [List.dropWhile_cons, hc]
  | false =>
    refine ⟨(t.reverse.dropWhile rustIsWhitespace).reverse, ?_⟩
    rw [if_neg Bool.false_ne_true, List.reverse_append, List.reverse_singleton,
      List.singleton_append]

/-- Claim C10: a declaration line `K=` whose right-hand side is empty,
all-whitespace, or a (possibly whitespace-preceded) unquoted `#` comment,
parses successfully to `(K, "")` for every valid key `K`. The key contains
no `=` — otherwise the line would split earlier and its right-hand side
would not be the one described. -/
theorem c10_empty_value_ok (K rhs : List Char)
    (hK : key_is_valid K = true) (hEq : '=' ∉ K)
    (hrhs : (∀ c ∈ rhs, rustIsWhitespace c = true) ∨
      ∃ pre rest, rhs = pre ++ '#' :: rest ∧ ∀ c ∈ pre, rustIsWhitespace c = true) :
    parse_env_line (K ++ '=' :: rhs) = .ok (K, []) := by
  have hsplit := splitFirstEq_append K rhs hEq
  have hKtrim : trimL K = K := trimL_id_of_no_ws (key_is_valid_no_ws hK)
  have hv : parse_value (trimL rhs) = .ok [] := by
    cases hrhs with
    | inl hws =>
      have h1 : trimL rhs = [] := by
        unfold trimL
        rw [trimStartL, dropWhile_nil_of_all hws]
        rfl
      rw [h1]
      rfl
    | inr hcm =>
      obtain ⟨pre, rest, hre, hpre⟩ := hcm
      subst hre
      have h1 : trimStartL (pre ++ '#' :: rest) = '#' :: rest := by
        unfold trimStartL
        rw [dropWhile_append_all _ hpre]
        exact dropWhile_id_of_head fun c hcc => by
          injection hcc with hcc
          rw [← hcc]
          rfl
      obtain ⟨t', ht'⟩ := trimEndL_cons_ex '#' rest (by rfl)
      have h2 : trimL (pre ++ '#' :: rest) = '#' :: t' := by
        unfold trimL
        rw [h1, ht']
      rw [h2]
      have h3 : pvLoop ('#' :: t') [S.Start] [] = .ok ([S.Start], []) := rfl
      rw [parse_value_eq_of_loop _ _ _ h3]
      rfl
  simp only [parse_env_line, hsplit, hKtrim, hK, if_true, Option.getD_some, hv]

/-- Witness for C10: the line `A= # comment` parses to `("A", "")`. -/
theorem c10_empty_value_ok_w :
    key_is_valid "A".data = true ∧ ('=' ∉ "A".data) ∧
    parse_env_line ("A".data ++ '=' :: " # comment".data) = .ok ("A".data, []) :=
  ⟨by decide, by decide,
    c10_empty_value_ok "A".data " # comment".data (by decide) (by decide)
      (Or.inr ⟨" ".data, " comment".data, by decide, by decide⟩)⟩

/-- Claim C3 (counterexample): the program renders entries as `K=V` with no
quoting or escaping (src/lib.rs line 86), so the claimed render/parse
round-trip fails: the tokenizer-producible value `a#b` renders as `A=a#b`,
which parses back to `("A", "a")`; similarly the valid key `A=B` renders as
`A=B=x`, which parses back to `("A", "B=x")`. -/
theorem c3_roundtrip_cex :
    key_is_valid "A".data = true ∧
    parse_value "\"a#b\"".data = .ok "a#b".data ∧
    parse_env_line (renderLine "A".data "a#b".data) = .ok ("A".data, "a".data) ∧
    parse_env_line (renderLine "A".data "a#b".data) ≠ .ok ("A".data, "a#b".data) ∧
    key_is_valid "A=B".data = true ∧
    parse_env_line (renderLine "A=B".data "x".data) = .ok ("A".data, "B=x".data) ∧
    parse_env_line (renderLine "A=B".data "x".data) ≠ .ok ("A=B".data, "x".data) := by
  refine ⟨rfl, rfl, rfl, ?_, rfl, rfl, ?_⟩ <;> decide

/-- Claim C3 (amended): for every valid key `K` containing no `=` and every
value `V` containing none of `"`, `'`, `\`, `#` and with no leading or
trailing whitespace, rendering the pair as the line `K=V` and parsing it
with the Line Parser recovers exactly `(K, V)`. (Such a `V` is itself
tokenizer-producible: the same line parses it out unchanged.) -/
theorem c3_roundtrip_amended (K V : List Char)
    (hK : key_is_valid K = true) (hKEq : '=' ∉ K)
    (hV : ∀ c ∈ V, c ≠ '"' ∧ c ≠ '\'' ∧ c ≠ '\\' ∧ c ≠ '#')
    (hVhead : ∀ c, V.head? = some c → rustIsWhitespace c = false)
    (hVlast : ∀ c, V.getLast? = some c → rustIsWhitespace c = false) :
    parse_env_line (renderLine K V) = .ok (K, V) := by
  have hsplit := splitFirstEq_append K V hKEq
  have hKtrim : trimL K = K := trimL_id_of_no_ws (key_is_valid_no_ws hK)
  have hVtrim : trimL V = V := by
    unfold trimL
    rw [trimStartL_id_of_head hVhead, trimEndL_id_of_last hVlast]
  have h1 : pvLoop V [S.Start] [] = .ok ([S.Start], V) := by
    rw [pvLoop_plain V [] hV, List.nil_append]
  have hv : parse_value V = .ok V := by
    rw [parse_value_eq_of_loop _ _ _ h1]
    unfold endCheck
    rw [if_pos rfl, trim_end_whitespace_of_no_trailing hVlast]
  simp only [parse_env_line, renderLine, hsplit, hKtrim, hK, if_true,
    Option.getD_some, hVtrim, hv]

/-- Witness for C3 (amended): the entry `("PATH", "a=b:c")` renders as
`PATH=a=b:c` and parses back unchanged. -/
theorem c3_roundtrip_amended_w :
    key_is_valid "PATH".data = true ∧
    parse_env_line (renderLine "PATH".data "a=b:c".data) =
      .ok ("PATH".data, "a=b:c".data) :=
  ⟨by decide,
    c3_roundtrip_amended "PATH".data "a=b:c".data (by decide) (by decide)
      (by decide) (by decide) (by decide)⟩

/-- Claim C4 (counterexample): on the input `"\u00A0"` (a double-quoted
non-breaking space) the state stack has returned to exactly `[Start]` at
end of input, yet the tokenizer does not succeed — the trailing-whitespace
truncation panics — so "succeeds iff the stack is exactly `[Start]`" fails
in the right-to-left direction. -/
theorem c4_end_of_input_cex :
    pvLoop "\"\u00A0\"".data [S.Start] [] = .ok ([S.Start], "\u00A0".data) ∧
    rIsOk (parse_value "\"\u00A0\"".data) = false := ⟨rfl, rfl⟩

/-- Claim C4 (amended): when the character pass completes with stack `st`
and output `out`, the tokenizer succeeds iff `st` is exactly `[Start]` and
the trailing-whitespace truncation does not panic; when the stack top is a
quote state it fails with the unmatched-quote error, and when the top is
`Escape` (a trailing unresolved backslash) it fails with the generic parse
error. -/
theorem c4_end_of_input_amended (v : List Char) (st : List S) (out : List Char)
    (h : pvLoop v [S.Start] [] = .ok (st, out)) :
    (rIsOk (parse_value v) = true ↔
      st = [S.Start] ∧ rIsOk (trim_end_whitespace out) = true) ∧
    ((st.head? = some S.DoubleQuote ∨ st.head? = some S.SingleQuote) →
      parse_value v = .error (.parse "error parsing value: unmatched quotes.")) ∧
    (st.head? = some S.Escape → parse_value v = .error (.parse "error parsing value")) := by
  rw [parse_value_eq_of_loop _ _ _ h]
  clear h
  unfold endCheck
  by_cases hst : st = [S.Start]
  · subst hst
    rw [if_pos rfl]
    refine ⟨?_, ?_, ?_⟩
    · cases htr : trim_end_whitespace out with
      | ok t => simp [rIsOk]
      | error e => simp [rIsOk]
    · intro hq
      rcases hq with hq | hq <;> simp at hq
    · intro hq
      simp at hq
  · rw [if_neg hst]
    cases st with
    | nil =>
      refine ⟨by simp [rIsOk], ?_, ?_⟩
      · intro hq
        rcases hq with hq | hq <;> simp at hq
      · intro hq
        simp at hq
    | cons s r =>
      cases s with
      | DoubleQuote =>
        refine ⟨by simp [rIsOk], fun _ => rfl, ?_⟩
        intro hq
        simp at hq
      | SingleQuote =>
        refine ⟨by simp [rIsOk], fun _ => rfl, ?_⟩
        intro hq
        simp at hq
      | Escape =>
        refine ⟨by simp [rIsOk], ?_, fun _ => rfl⟩
        intro hq
        rcases hq with hq | hq <;> simp at hq
      | Start =>
        refine ⟨by simp [rIsOk, hst], ?_, ?_⟩
        · intro hq
          rcases hq with hq | hq <;> simp at hq
        · intro hq
          simp at hq

/-- Witness for C4 (amended): the value `"x` (an unterminated double quote)
ends the pass with the stack `[DoubleQuote]` and fails with the
unmatched-quote error. -/
theorem c4_end_of_input_amended_w :
    pvLoop "\"x".data [S.Start] [] = .ok ([S.DoubleQuote], "x".data) ∧
    parse_value "\"x".data = .error (.parse "error parsing value: unmatched quotes.") :=
  ⟨rfl, (c4_end_of_input_amended "\"x".data [S.DoubleQuote] "x".data rfl).2.1 (Or.inl rfl)⟩

end Enw
